import Mathlib

/-!
Verification of the avtools frame-snapping / timeline-assembly core.

The Python sources use `decimal.Decimal` arithmetic (context precision 20,
rounding `ROUND_HALF_EVEN`).  Times are embedded as exact rationals `ℚ`.
Two models of `snap_to_frame_grid` are used:

* `snap_to_frame_grid` : the exact-arithmetic model (every `Decimal`
  operation that stays within 20 significant digits is exact, so this model
  agrees with the code on all the small concrete inputs used below);
* `snapD` : the faithful precision-20 model, in which every multiplication
  and division result is rounded to 20 significant decimal digits half-even
  (`roundSig 20`), exactly as the `getcontext().prec = 20` context does.

`round` on a `Decimal` is round-half-even (`roundHalfEven`); Decimal's
`ROUND_HALF_UP` is round-half-away-from-zero (`roundHalfUp`); Python `int()`
on a `Decimal` truncates toward zero (`truncInt`).
-/

/-- Python `round()` on a `Decimal`: nearest integer, ties to even
(banker's rounding), as used in `snap_to_frame_grid`
(`src/avtools/common/fcpxml_utils.py` line 22). -/
def roundHalfEven (q : ℚ) : ℤ :=
  if q - ⌊q⌋ < 1/2 then ⌊q⌋
  else if 1/2 < q - ⌊q⌋ then ⌊q⌋ + 1
  else if ⌊q⌋ % 2 = 0 then ⌊q⌋ else ⌊q⌋ + 1

/-- Decimal `ROUND_HALF_UP`: nearest integer, ties away from zero, as used
in `seconds_to_timeline_time` (`src/avtools/common/fcpxml_utils.py` line 36). -/
def roundHalfUp (q : ℚ) : ℤ :=
  if 0 ≤ q then ⌊q + 1/2⌋ else -⌊-q + 1/2⌋

/-- Python `int()` on a `Decimal`: truncation toward zero
(`src/avtools/common/fcpxml_utils.py` line 43). -/
def truncInt (q : ℚ) : ℤ :=
  Int.tdiv q.num q.den

/-- Model of `snap_to_frame_grid(time_sec, frame_rate)` from
`src/avtools/common/fcpxml_utils.py` lines 19-24 (identical copy in
`src/avtools/audio/json_to_fcpxml.py` lines 21-26), exact-arithmetic model:
`frames = round(time_sec * frame_rate); return frames / frame_rate`. -/
def snap_to_frame_grid (time_sec : ℚ) (frame_rate : ℚ) : ℚ :=
  (roundHalfEven (time_sec * frame_rate) : ℚ) / frame_rate

/-- Predicate: `t` lies on the frame grid of `frame_rate`: it is an integer number of
frames. -/
def onGrid (t : ℚ) (frame_rate : ℚ) : Prop :=
  ∃ n : ℤ, t = (n : ℚ) / frame_rate

lemma roundHalfEven_sub_abs_le (q : ℚ) : |(roundHalfEven q : ℚ) - q| ≤ 1/2 := by
  have h0 : (⌊q⌋ : ℚ) ≤ q := Int.floor_le q
  have h1 : q < ⌊q⌋ + 1 := Int.lt_floor_add_one q
  unfold roundHalfEven
  split
  · rename_i h
    rw [abs_sub_comm, abs_of_nonneg (by linarith)]
    linarith
  · rename_i h
    push_neg at h
    split
    · rename_i h2
      push_cast
      rw [abs_of_nonneg (by linarith)]
      linarith
    · rename_i h2
      push_neg at h2
      have he : q - ⌊q⌋ = 1/2 := le_antisymm h2 h
      split
      · rw [abs_sub_comm, abs_of_nonneg (by linarith)]
        linarith
      · push_cast
        rw [abs_of_nonneg (by linarith)]
        linarith

lemma roundHalfEven_le (q : ℚ) : (roundHalfEven q : ℚ) ≤ q + 1/2 := by
  have := roundHalfEven_sub_abs_le q
  rw [abs_le] at this
  linarith [this.2]

lemma roundHalfEven_ge (q : ℚ) : q - 1/2 ≤ (roundHalfEven q : ℚ) := by
  have := roundHalfEven_sub_abs_le q
  rw [abs_le] at this
  linarith [this.1]

lemma roundHalfEven_intCast (n : ℤ) : roundHalfEven (n : ℚ) = n := by
  unfold roundHalfEven
  rw [Int.floor_intCast]
  simp

lemma roundHalfEven_eq_of_abs_lt {q : ℚ} {m : ℤ} (h : |q - (m : ℚ)| < 1/2) :
    roundHalfEven q = m := by
  rw [abs_lt] at h
  obtain ⟨hlo, hhi⟩ := h
  rcases le_or_lt (m : ℚ) q with hc | hc
  · have hf : ⌊q⌋ = m := by
      apply Int.floor_eq_iff.mpr
      constructor
      · exact_mod_cast hc
      · linarith
    unfold roundHalfEven
    rw [hf]
    rw [if_pos (by linarith : q - (m : ℚ) < 1/2)]
  · have hf : ⌊q⌋ = m - 1 := by
      apply Int.floor_eq_iff.mpr
      constructor
      · push_cast; linarith
      · push_cast; linarith
    unfold roundHalfEven
    rw [hf]
    have h2 : ¬ (q - ((m - 1 : ℤ) : ℚ) < 1/2) := by push_cast; push_neg; linarith
    have h3 : 1/2 < q - ((m - 1 : ℤ) : ℚ) := by push_cast; linarith
    rw [if_neg h2, if_pos h3]
    omega

lemma roundHalfEven_mono {t u : ℚ} (h : t ≤ u) :
    roundHalfEven t ≤ roundHalfEven u := by
  rcases eq_or_lt_of_le h with rfl | hlt
  · exact le_refl _
  by_contra hcon
  push_neg at hcon
  have h1 : (roundHalfEven u : ℚ) + 1 ≤ (roundHalfEven t : ℚ) := by
    exact_mod_cast Int.add_one_le_iff.mpr hcon
  have h2 := roundHalfEven_le t
  have h3 := roundHalfEven_ge u
  linarith

lemma roundHalfEven_nearest (t : ℚ) (m : ℤ) :
    |t - (roundHalfEven t : ℚ)| ≤ |t - (m : ℚ)| := by
  rcases eq_or_ne m (roundHalfEven t) with rfl | hne
  · exact le_refl _
  · have h1 : (1 : ℚ) ≤ |(roundHalfEven t : ℚ) - (m : ℚ)| := by
      have h0 : (1 : ℤ) ≤ |roundHalfEven t - m| := Int.one_le_abs (by omega)
      exact_mod_cast h0
    have h2 : |(roundHalfEven t : ℚ) - t| ≤ 1/2 := roundHalfEven_sub_abs_le t
    have h3 : |(roundHalfEven t : ℚ) - (m : ℚ)| ≤
        |(roundHalfEven t : ℚ) - t| + |t - (m : ℚ)| := abs_sub_le _ _ _
    have h4 : |t - (roundHalfEven t : ℚ)| ≤ 1/2 := by
      rw [abs_sub_comm]; exact h2
    linarith

lemma roundHalfUp_nonneg {q : ℚ} (h : 0 ≤ q) : 0 ≤ roundHalfUp q := by
  unfold roundHalfUp
  rw [if_pos h]
  have : (0 : ℚ) ≤ q + 1/2 := by linarith
  exact Int.floor_nonneg.mpr this

lemma truncInt_nonneg {q : ℚ} (h : 0 ≤ q) : 0 ≤ truncInt q := by
  unfold truncInt
  have hnum : 0 ≤ q.num := Rat.num_nonneg.mpr h
  exact Int.tdiv_nonneg hnum (by positivity)

/-- Base-10 logarithm on naturals (number of digits minus one), fuel-based
so that it evaluates inside the kernel. -/
def natLog10Aux : ℕ → ℕ → ℕ
  | 0, _ => 0
  | fuel + 1, n => if n < 10 then 0 else natLog10Aux fuel (n / 10) + 1

/-- Floor base-10 logarithm: `natLog10 n = ⌊log₁₀ n⌋` for `1 ≤ n`. -/
def natLog10 (n : ℕ) : ℕ := natLog10Aux n n

/-- Base-10 ceiling logarithm on naturals, fuel-based. -/
def natClog10Aux : ℕ → ℕ → ℕ
  | 0, _ => 0
  | fuel + 1, n => if n ≤ 1 then 0 else natClog10Aux fuel ((n + 9) / 10) + 1

/-- Ceiling base-10 logarithm: `natClog10 n = ⌈log₁₀ n⌉` for `2 ≤ n`. -/
def natClog10 (n : ℕ) : ℕ := natClog10Aux n n

lemma natLog10Aux_spec : ∀ (fuel n : ℕ), n ≤ fuel → 1 ≤ n →
    10 ^ (natLog10Aux fuel n) ≤ n ∧ n < 10 ^ (natLog10Aux fuel n + 1) := by
  intro fuel
  induction fuel with
  | zero => intro n hn h1; omega
  | succ fuel ih =>
      intro n hn h1
      rcases lt_or_le n 10 with hlt | hge
      · simp only [natLog10Aux, if_pos hlt]
        constructor
        · simpa using h1
        · simpa using hlt
      · have hd := Nat.div_add_mod n 10
        have hm1 : 1 ≤ n / 10 := (Nat.one_le_div_iff (by norm_num)).mpr hge
        have hmf : n / 10 ≤ fuel := by omega
        obtain ⟨ihl, ihr⟩ := ih (n / 10) hmf hm1
        simp only [natLog10Aux, if_neg (not_lt.mpr hge)]
        constructor
        · calc 10 ^ (natLog10Aux fuel (n / 10) + 1)
              = 10 ^ (natLog10Aux fuel (n / 10)) * 10 := by ring
            _ ≤ (n / 10) * 10 := by exact Nat.mul_le_mul_right 10 ihl
            _ ≤ n := by omega
        · calc n < (n / 10) * 10 + 10 := by omega
            _ = ((n / 10) + 1) * 10 := by ring
            _ ≤ 10 ^ (natLog10Aux fuel (n / 10) + 1) * 10 := by
                exact Nat.mul_le_mul_right 10 (by omega)
            _ = 10 ^ (natLog10Aux fuel (n / 10) + 1 + 1) := by ring

lemma natLog10_spec (n : ℕ) (h1 : 1 ≤ n) :
    10 ^ (natLog10 n) ≤ n ∧ n < 10 ^ (natLog10 n + 1) :=
  natLog10Aux_spec n n (le_refl n) h1

lemma natClog10Aux_of_le_one : ∀ (fuel m : ℕ), m ≤ 1 → natClog10Aux fuel m = 0 := by
  intro fuel m hm
  cases fuel with
  | zero => rfl
  | succ fuel => simp [natClog10Aux, hm]

lemma natClog10Aux_spec : ∀ (fuel n : ℕ), n ≤ fuel → 2 ≤ n →
    n ≤ 10 ^ (natClog10Aux fuel n) ∧ 10 ^ (natClog10Aux fuel n - 1) < n ∧
      1 ≤ natClog10Aux fuel n := by
  intro fuel
  induction fuel with
  | zero => intro n hn h2; omega
  | succ fuel ih =>
      intro n hn h2
      have hnle : ¬ (n ≤ 1) := by omega
      have hd := Nat.div_add_mod (n + 9) 10
      have hmod : (n + 9) % 10 < 10 := Nat.mod_lt _ (by norm_num)
      rcases le_or_lt ((n + 9) / 10) 1 with hm1 | hm2
      · simp only [natClog10Aux, if_neg hnle, natClog10Aux_of_le_one fuel _ hm1]
        refine ⟨by omega, by simpa using h2, by omega⟩
      · have hm2' : 2 ≤ (n + 9) / 10 := hm2
        have hmf : (n + 9) / 10 ≤ fuel := by omega
        obtain ⟨ihl, ihm, ihk⟩ := ih ((n + 9) / 10) hmf hm2'
        simp only [natClog10Aux, if_neg hnle]
        have hkk : natClog10Aux fuel ((n + 9) / 10) - 1 + 1 = natClog10Aux fuel ((n + 9) / 10) := by omega
        constructor
        · calc n ≤ (n + 9) / 10 * 10 := by omega
            _ ≤ 10 ^ (natClog10Aux fuel ((n + 9) / 10)) * 10 := Nat.mul_le_mul_right 10 ihl
            _ = 10 ^ (natClog10Aux fuel ((n + 9) / 10) + 1) := by ring
        refine ⟨?_, by omega⟩
        have h10 : 10 ^ (natClog10Aux fuel ((n + 9) / 10) - 1) * 10 + 10 ≤ (n + 9) / 10 * 10 := by
          have := Nat.mul_le_mul_right 10 (Nat.succ_le_of_lt ihm)
          omega
        have hpow : 10 ^ (natClog10Aux fuel ((n + 9) / 10) - 1) * 10
            = 10 ^ (natClog10Aux fuel ((n + 9) / 10)) := by
          conv_rhs => rw [← hkk]
          ring
        simp only [Nat.add_sub_cancel]
        omega

lemma natClog10_spec (n : ℕ) (h2 : 2 ≤ n) :
    n ≤ 10 ^ (natClog10 n) ∧ 10 ^ (natClog10 n - 1) < n ∧ 1 ≤ natClog10 n :=
  natClog10Aux_spec n n (le_refl n) h2

/-- Adjusted exponent `⌊log₁₀ |q|⌋` for a nonzero rational: the adjusted exponent of the
corresponding `Decimal` value. -/
def decLog10 (q : ℚ) : ℤ :=
  if 1 ≤ |q| then (natLog10 ⌊|q|⌋₊ : ℤ) else -(natClog10 ⌈|q|⁻¹⌉₊ : ℤ)

lemma decLog10_spec {q : ℚ} (hq : q ≠ 0) :
    (10 : ℚ) ^ (decLog10 q) ≤ |q| ∧ |q| < (10 : ℚ) ^ (decLog10 q + 1) := by
  have habs : 0 < |q| := abs_pos.mpr hq
  unfold decLog10
  rcases le_or_lt 1 |q| with h1 | h1
  · rw [if_pos h1]
    have hn1 : 1 ≤ ⌊|q|⌋₊ := Nat.le_floor (by exact_mod_cast h1)
    obtain ⟨hl, hr⟩ := natLog10_spec _ hn1
    constructor
    · calc (10:ℚ) ^ ((natLog10 ⌊|q|⌋₊ : ℤ)) = ((10 ^ natLog10 ⌊|q|⌋₊ : ℕ) : ℚ) := by
            rw [zpow_natCast]; push_cast; ring
        _ ≤ (⌊|q|⌋₊ : ℚ) := by exact_mod_cast hl
        _ ≤ |q| := Nat.floor_le (le_of_lt habs)
    · calc |q| < (⌊|q|⌋₊ : ℚ) + 1 := Nat.lt_floor_add_one _
        _ ≤ ((10 ^ (natLog10 ⌊|q|⌋₊ + 1) : ℕ) : ℚ) := by exact_mod_cast hr
        _ = (10:ℚ) ^ ((natLog10 ⌊|q|⌋₊ : ℤ) + 1) := by
            rw [show ((natLog10 ⌊|q|⌋₊ : ℤ) + 1) = ((natLog10 ⌊|q|⌋₊ + 1 : ℕ) : ℤ) by push_cast; ring,
              zpow_natCast]
            push_cast; ring
  · rw [if_neg (not_le.mpr h1)]
    have hrpos : 0 < |q|⁻¹ := inv_pos.mpr habs
    have hr1 : 1 < |q|⁻¹ := by
      have h10 : |q| * |q|⁻¹ = 1 := mul_inv_cancel₀ (ne_of_gt habs)
      nlinarith
    have hN2 : 2 ≤ ⌈|q|⁻¹⌉₊ := by
      have : 1 < ⌈|q|⁻¹⌉₊ := Nat.lt_ceil.mpr (by exact_mod_cast hr1)
      omega
    obtain ⟨hl, hm, hk1⟩ := natClog10_spec _ hN2
    have hle : |q|⁻¹ ≤ ((10 ^ natClog10 ⌈|q|⁻¹⌉₊ : ℕ) : ℚ) := by
      calc |q|⁻¹ ≤ (⌈|q|⁻¹⌉₊ : ℚ) := Nat.le_ceil _
        _ ≤ _ := by exact_mod_cast hl
    have hgt : ((10 ^ (natClog10 ⌈|q|⁻¹⌉₊ - 1) : ℕ) : ℚ) < |q|⁻¹ := by
      have hceil : (⌈|q|⁻¹⌉₊ : ℚ) < |q|⁻¹ + 1 := Nat.ceil_lt_add_one (le_of_lt hrpos)
      have hstep : ((10 ^ (natClog10 ⌈|q|⁻¹⌉₊ - 1) : ℕ) : ℚ) + 1 ≤ (⌈|q|⁻¹⌉₊ : ℚ) := by
        exact_mod_cast Nat.succ_le_of_lt hm
      linarith
    constructor
    · rw [zpow_neg, zpow_natCast]
      rw [inv_le_comm₀ (by positivity) habs]
      calc |q|⁻¹ ≤ ((10 ^ natClog10 ⌈|q|⁻¹⌉₊ : ℕ) : ℚ) := hle
        _ = (10:ℚ) ^ natClog10 ⌈|q|⁻¹⌉₊ := by push_cast; ring
    · have hexp : -(natClog10 ⌈|q|⁻¹⌉₊ : ℤ) + 1 = -((natClog10 ⌈|q|⁻¹⌉₊ - 1 : ℕ) : ℤ) := by
        have : 1 ≤ natClog10 ⌈|q|⁻¹⌉₊ := hk1
        push_cast [Nat.cast_sub this]
        ring
      rw [hexp, zpow_neg, zpow_natCast]
      rw [lt_inv_comm₀ habs (by positivity)]
      calc ((10:ℚ) ^ (natClog10 ⌈|q|⁻¹⌉₊ - 1)) = ((10 ^ (natClog10 ⌈|q|⁻¹⌉₊ - 1) : ℕ) : ℚ) := by
            push_cast; ring
        _ < |q|⁻¹ := hgt

/-- Rounding to `p` significant decimal digits, half-even: the operation the
`Decimal` context (`getcontext().prec = 20`) applies to every arithmetic
result.  `0` is returned unchanged. -/
def roundSig (p : ℕ) (q : ℚ) : ℚ :=
  if q = 0 then 0
  else (roundHalfEven (q / 10 ^ (decLog10 q - p + 1)) : ℚ) * 10 ^ (decLog10 q - p + 1)

lemma roundSig_sub_abs_le (p : ℕ) {q : ℚ} (hq : q ≠ 0) :
    |roundSig p q - q| ≤ (10:ℚ) ^ (decLog10 q - p + 1) / 2 := by
  have hupos : (0:ℚ) < 10 ^ (decLog10 q - p + 1) := zpow_pos (by norm_num) _
  unfold roundSig
  rw [if_neg hq]
  set u : ℚ := 10 ^ (decLog10 q - p + 1) with hu
  have h := roundHalfEven_sub_abs_le (q / u)
  have key : (roundHalfEven (q / u) : ℚ) * u - q = ((roundHalfEven (q / u) : ℚ) - q / u) * u := by
    rw [sub_mul, div_mul_cancel₀ _ (ne_of_gt hupos)]
  rw [key, abs_mul, abs_of_pos hupos]
  have := mul_le_mul_of_nonneg_right h (le_of_lt hupos)
  linarith

lemma roundSig_zero (p : ℕ) : roundSig p 0 = 0 := by
  unfold roundSig
  simp

/-- Model of `snap_to_frame_grid` in the faithful precision-20 `Decimal` setting: both
the product `time_sec * frame_rate` and the final quotient are rounded to 20
significant digits (half-even), exactly as `Decimal` arithmetic under
`getcontext().prec = 20` does.  `frame_rate` is the integer frame rate. -/
def snapD (time_sec : ℚ) (frame_rate : ℕ) : ℚ :=
  roundSig 20 ((roundHalfEven (roundSig 20 (time_sec * frame_rate)) : ℚ) / frame_rate)

lemma decLog10_eq_of {q : ℚ} {e : ℤ} (hq : q ≠ 0)
    (h1 : (10:ℚ) ^ e ≤ |q|) (h2 : |q| < (10:ℚ) ^ (e + 1)) : decLog10 q = e := by
  obtain ⟨hs1, hs2⟩ := decLog10_spec hq
  by_contra hne
  rcases lt_or_gt_of_ne hne with hlt | hgt
  · have : (10:ℚ) ^ (decLog10 q + 1) ≤ 10 ^ e :=
      zpow_le_zpow_right₀ (by norm_num) (by omega)
    linarith
  · have : (10:ℚ) ^ (e + 1) ≤ 10 ^ (decLog10 q) :=
      zpow_le_zpow_right₀ (by norm_num) (by omega)
    linarith

lemma roundHalfEven_eq_tie {q : ℚ} {m : ℤ} (h : q - (m : ℚ) = 1/2)
    (hev : m % 2 = 0) : roundHalfEven q = m := by
  have hf : ⌊q⌋ = m := by
    apply Int.floor_eq_iff.mpr
    constructor
    · linarith
    · linarith
  unfold roundHalfEven
  rw [hf]
  rw [if_neg (by rw [h]; norm_num), if_neg (by rw [h]; norm_num), if_pos hev]

lemma roundSig20_sub_abs_le {q : ℚ} (hq : q ≠ 0) :
    |roundSig 20 q - q| ≤ (10:ℚ) ^ (decLog10 q - 19) / 2 := by
  have h := roundSig_sub_abs_le 20 hq
  have hexp : decLog10 q - ((20:ℕ):ℤ) + 1 = decLog10 q - 19 := by push_cast; ring
  rwa [hexp] at h

lemma roundSig_eq_of {q v : ℚ} {e n : ℤ} (hq : q ≠ 0)
    (h1 : (10:ℚ) ^ e ≤ |q|) (h2 : |q| < (10:ℚ) ^ (e + 1))
    (hn : roundHalfEven (q / 10 ^ (e - 19)) = n)
    (hv : (n : ℚ) * 10 ^ (e - 19) = v) :
    roundSig 20 q = v := by
  have he := decLog10_eq_of hq h1 h2
  have hexp : decLog10 q - ((20:ℕ):ℤ) + 1 = e - 19 := by rw [he]; push_cast; ring
  unfold roundSig
  rw [if_neg hq, hexp, hn, hv]

/-- C2 (amended): under the precision-20 `Decimal` context, frame snapping is
idempotent whenever the rounded frame count of the first snap has magnitude
at most `10^18` — which covers every realistic time value, including frame
rates such as 3 whose reciprocal has no finite decimal expansion.  (For frame
counts of magnitude around `10^19` and beyond the double rounding through 20
significant digits can break idempotence; see the counterexample.) -/
theorem snapD_idempotent_of_small_frames (s : ℚ) (fr : ℕ) (hfr : 0 < fr)
    (hm : (roundHalfEven (roundSig 20 (s * fr))).natAbs ≤ 10 ^ 18) :
    snapD (snapD s fr) fr = snapD s fr := by
  have hfrQ : (0:ℚ) < fr := by exact_mod_cast hfr
  set m : ℤ := roundHalfEven (roundSig 20 (s * fr)) with hmdef
  have hsnap : snapD s fr = roundSig 20 ((m : ℚ) / fr) := rfl
  rcases eq_or_ne m 0 with hm0 | hm0
  · rw [hsnap, hm0]
    have h00 : ((0 : ℤ) : ℚ) / fr = 0 := by norm_num
    rw [h00, roundSig_zero]
    show snapD 0 fr = 0
    unfold snapD
    rw [zero_mul, roundSig_zero]
    have h01 : roundHalfEven (0:ℚ) = 0 := by
      rw [show (0:ℚ) = ((0:ℤ):ℚ) by norm_num, roundHalfEven_intCast]
    rw [h01, h00, roundSig_zero]
  · set q : ℚ := (m : ℚ) / fr with hqdef
    have hq0 : q ≠ 0 := div_ne_zero (Int.cast_ne_zero.mpr hm0) (ne_of_gt hfrQ)
    set x : ℚ := roundSig 20 q with hxdef
    set e : ℤ := decLog10 q with hedef
    obtain ⟨hs1, hs2⟩ := decLog10_spec hq0
    have hxq : |x - q| ≤ (10:ℚ) ^ (e - 19) / 2 := roundSig20_sub_abs_le hq0
    have hmQ : |(m : ℚ)| ≤ 10 ^ 18 := by
      have h1 : (m.natAbs : ℤ) ≤ (10:ℤ) ^ 18 := by exact_mod_cast hm
      have h2 : |m| ≤ (10:ℤ) ^ 18 := by rwa [Int.abs_eq_natAbs]
      calc |(m : ℚ)| = ((|m| : ℤ) : ℚ) := by push_cast; ring
        _ ≤ (((10:ℤ) ^ 18 : ℤ) : ℚ) := by exact_mod_cast h2
        _ = 10 ^ 18 := by push_cast; ring
    have habsq : |q| = |(m : ℚ)| / fr := by
      rw [hqdef, abs_div, abs_of_pos hfrQ]
    have h3 : (fr : ℚ) * (10:ℚ) ^ e ≤ |(m : ℚ)| := by
      have h31 : (10:ℚ) ^ e ≤ |(m : ℚ)| / fr := by rw [← habsq]; exact hs1
      have h32 := mul_le_mul_of_nonneg_left h31 (le_of_lt hfrQ)
      rwa [mul_div_cancel₀ _ (ne_of_gt hfrQ)] at h32
    have hsplit : (10:ℚ) ^ (e - 19) = 10 ^ e * 10 ^ (-(19:ℤ)) := by
      rw [zpow_sub₀ (by norm_num : (10:ℚ) ≠ 0), zpow_neg, div_eq_mul_inv]
    have hp19 : (0:ℚ) < 10 ^ (-(19:ℤ)) := zpow_pos (by norm_num) _
    have h4 : |x * fr - (m : ℚ)| ≤ 1 / 20 := by
      have h41 : x * fr - (m : ℚ) = (x - q) * fr := by
        rw [hqdef]
        field_simp
      rw [h41, abs_mul, abs_of_pos hfrQ]
      have h42 : |x - q| * fr ≤ ((10:ℚ) ^ (e - 19) / 2) * fr :=
        mul_le_mul_of_nonneg_right hxq (le_of_lt hfrQ)
      have h43 : ((10:ℚ) ^ (e - 19) / 2) * fr = (fr * 10 ^ e) * 10 ^ (-(19:ℤ)) / 2 := by
        rw [hsplit]; ring
      have h44 : (fr * (10:ℚ) ^ e) * 10 ^ (-(19:ℤ)) / 2 ≤ |(m : ℚ)| * 10 ^ (-(19:ℤ)) / 2 := by
        have := mul_le_mul_of_nonneg_right h3 (le_of_lt hp19)
        linarith
      have h45 : |(m : ℚ)| * 10 ^ (-(19:ℤ)) / 2 ≤ (10:ℚ) ^ 18 * 10 ^ (-(19:ℤ)) / 2 := by
        have := mul_le_mul_of_nonneg_right hmQ (le_of_lt hp19)
        linarith
      have h46 : (10:ℚ) ^ 18 * 10 ^ (-(19:ℤ)) / 2 = 1 / 20 := by
        have h47 : (10:ℚ) ^ 18 = 10 ^ ((18:ℤ)) := by
          rw [show ((18:ℤ)) = ((18:ℕ):ℤ) by norm_num, zpow_natCast]
        rw [h47, ← zpow_add₀ (by norm_num : (10:ℚ) ≠ 0)]
        norm_num
      linarith
    have hepos : (0:ℚ) < 10 ^ e := zpow_pos (by norm_num) _
    have h5 : x ≠ 0 := by
      intro hx0
      have hq51 : |x - q| = |q| := by rw [hx0, zero_sub, abs_neg]
      have h53 : |q| ≤ 10 ^ (e - 19) / 2 := by rw [← hq51]; exact hxq
      have h52 : (10:ℚ) ^ (e - 19) ≤ 10 ^ e := by
        apply zpow_le_zpow_right₀ (by norm_num)
        omega
      have hs1e : (10:ℚ) ^ e ≤ |q| := hs1
      linarith
    have hxfr0 : x * fr ≠ 0 := mul_ne_zero h5 (ne_of_gt hfrQ)
    obtain ⟨hs1', hs2'⟩ := decLog10_spec hxfr0
    have hv := roundSig20_sub_abs_le hxfr0
    have hxfrbound : |x * fr| ≤ 10 ^ 18 + 1 / 20 := by
      have h61 : |x * fr| - |(m : ℚ)| ≤ |x * fr - (m : ℚ)| := abs_sub_abs_le_abs_sub _ _
      linarith
    have he'le : decLog10 (x * fr) ≤ 18 := by
      by_contra hcon
      push_neg at hcon
      have h71 : (10:ℚ) ^ (19:ℤ) ≤ 10 ^ (decLog10 (x * fr)) :=
        zpow_le_zpow_right₀ (by norm_num) (by omega)
      have h72 : (10:ℚ) ^ (19:ℤ) = 10 ^ (19:ℕ) := by
        rw [show ((19:ℤ)) = ((19:ℕ):ℤ) by norm_num, zpow_natCast]
      have h73 : ((10:ℚ) ^ (19:ℕ)) = 10000000000000000000 := by norm_num
      have h74 : ((10:ℚ) ^ (18:ℕ)) = 1000000000000000000 := by norm_num
      rw [h72, h73] at h71
      rw [h74] at hxfrbound
      linarith
    have hvb : |roundSig 20 (x * fr) - x * fr| ≤ 1 / 20 := by
      refine le_trans hv ?_
      have h81 : (10:ℚ) ^ (decLog10 (x * fr) - 19) ≤ 10 ^ (-(1:ℤ)) :=
        zpow_le_zpow_right₀ (by norm_num) (by omega)
      have h82 : (10:ℚ) ^ (-(1:ℤ)) = 1 / 10 := by norm_num
      rw [h82] at h81
      linarith
    have hfinal : roundHalfEven (roundSig 20 (x * fr)) = m := by
      apply roundHalfEven_eq_of_abs_lt
      have h91 : |roundSig 20 (x * fr) - (m : ℚ)| ≤
          |roundSig 20 (x * fr) - x * fr| + |x * fr - (m : ℚ)| := by
        have := abs_sub_le (roundSig 20 (x * fr)) (x * fr) ((m : ℚ))
        exact this
      calc |roundSig 20 (x * fr) - (m : ℚ)| ≤ 1 / 20 + 1 / 20 := by linarith
        _ < 1 / 2 := by norm_num
    rw [hsnap]
    show snapD x fr = x
    unfold snapD
    rw [hfinal, ← hqdef]

lemma roundHalfEven_eq_tie_up {q : ℚ} {m : ℤ} (h : (m : ℚ) - q = 1/2)
    (hev : m % 2 = 0) : roundHalfEven q = m := by
  have hf : ⌊q⌋ = m - 1 := by
    apply Int.floor_eq_iff.mpr
    constructor
    · push_cast; linarith
    · push_cast; linarith
  have hq1 : q - ((m - 1 : ℤ) : ℚ) = 1/2 := by push_cast; linarith
  unfold roundHalfEven
  rw [hf]
  rw [if_neg (by rw [hq1]; norm_num), if_neg (by rw [hq1]; norm_num),
    if_neg (by omega)]
  omega

lemma roundSig_eq_of_pos {q v : ℚ} {e n : ℤ} (hq : 0 < q)
    (h1 : (10:ℚ) ^ e ≤ q) (h2 : q < (10:ℚ) ^ (e + 1))
    (hn : roundHalfEven (q / 10 ^ (e - 19)) = n)
    (hv : (n : ℚ) * 10 ^ (e - 19) = v) :
    roundSig 20 q = v :=
  roundSig_eq_of (ne_of_gt hq) (by rwa [abs_of_pos hq]) (by rwa [abs_of_pos hq]) hn hv

/-- C2 (counterexample): `snap_to_frame_grid` is not idempotent under the
precision-20 decimal context.  At `s = 103092783505154608.505` seconds and
frame rate 97, the first snap yields `103092783505154608.51` but snapping
that value again yields `103092783505154608.52`: the re-snap multiplies back
to `9999999999999997025.47`, which the 20-digit context rounds to
`…25.5`, and the integer rounding then breaks the half-even tie upward. -/
theorem snapD_not_idempotent : ¬ (∀ (s : ℚ) (fr : ℕ), 0 < fr →
    snapD (snapD s fr) fr = snapD s fr) := by
  intro hall
  have e1 : roundSig 20 ((103092783505154608505/1000 : ℚ) * ((97:ℕ) : ℚ))
      = (9999999999999997025 : ℚ) := by
    have harg : (103092783505154608505/1000 : ℚ) * ((97:ℕ) : ℚ)
        = 1999999999999999404997/200 := by norm_num
    rw [harg]
    exact roundSig_eq_of_pos (e := 18) (n := 99999999999999970250) (by norm_num)
      (by norm_num) (by norm_num)
      (roundHalfEven_eq_of_abs_lt (by norm_num [abs_lt])) (by norm_num)
  have hm1 : roundHalfEven (9999999999999997025 : ℚ) = 9999999999999997025 := by
    exact roundHalfEven_eq_of_abs_lt (by norm_num [abs_lt])
  have hx : snapD (103092783505154608505/1000) 97 = 10309278350515460851/100 := by
    unfold snapD
    rw [e1, hm1]
    have harg2 : ((9999999999999997025 : ℤ) : ℚ) / ((97:ℕ) : ℚ)
        = 9999999999999997025/97 := by norm_num
    rw [harg2]
    exact roundSig_eq_of_pos (e := 17) (n := 10309278350515460851) (by norm_num)
      (by norm_num) (by norm_num)
      (roundHalfEven_eq_of_abs_lt (by norm_num [abs_lt])) (by norm_num)
  have e2 : roundSig 20 ((10309278350515460851/100 : ℚ) * ((97:ℕ) : ℚ))
      = (19999999999999994051/2 : ℚ) := by
    have harg : (10309278350515460851/100 : ℚ) * ((97:ℕ) : ℚ)
        = 999999999999999702547/100 := by norm_num
    rw [harg]
    exact roundSig_eq_of_pos (e := 18) (n := 99999999999999970255) (by norm_num)
      (by norm_num) (by norm_num)
      (roundHalfEven_eq_of_abs_lt (by norm_num [abs_lt])) (by norm_num)
  have hm2 : roundHalfEven (19999999999999994051/2 : ℚ) = 9999999999999997026 := by
    apply roundHalfEven_eq_tie_up (by norm_num) (by norm_num)
  have hy : snapD (10309278350515460851/100) 97 = 2577319587628865213/25 := by
    unfold snapD
    rw [e2, hm2]
    have harg2 : ((9999999999999997026 : ℤ) : ℚ) / ((97:ℕ) : ℚ)
        = 9999999999999997026/97 := by norm_num
    rw [harg2]
    exact roundSig_eq_of_pos (e := 17) (n := 10309278350515460852) (by norm_num)
      (by norm_num) (by norm_num)
      (roundHalfEven_eq_of_abs_lt (by norm_num [abs_lt])) (by norm_num)
  have hcontra := hall (103092783505154608505/1000) 97 (by norm_num)
  rw [hx, hy] at hcontra
  norm_num at hcontra

/-- C2 (witness): the amended idempotence theorem applied at `s = 0.05`,
frame rate 50. -/
theorem snapD_idempotent_witness :
    (0 < 50 ∧ (roundHalfEven (roundSig 20 ((1/20 : ℚ) * ((50:ℕ) : ℚ)))).natAbs ≤ 10 ^ 18)
      ∧ snapD (snapD (1/20) 50) 50 = snapD (1/20) 50 := by
  have harg : (1/20 : ℚ) * ((50:ℕ) : ℚ) = 5/2 := by norm_num
  have e1 : roundSig 20 ((1/20 : ℚ) * ((50:ℕ) : ℚ)) = (5/2 : ℚ) := by
    rw [harg]
    exact roundSig_eq_of_pos (e := 0) (n := 25000000000000000000) (by norm_num)
      (by norm_num) (by norm_num)
      (roundHalfEven_eq_of_abs_lt (by norm_num [abs_lt])) (by norm_num)
  have hm : (roundHalfEven (roundSig 20 ((1/20 : ℚ) * ((50:ℕ) : ℚ)))).natAbs ≤ 10 ^ 18 := by
    rw [e1]
    have h2 : roundHalfEven (5/2 : ℚ) = 2 := roundHalfEven_eq_tie (by norm_num) (by norm_num)
    rw [h2]
    norm_num
  exact ⟨⟨by norm_num, hm⟩, snapD_idempotent_of_small_frames (1/20) 50 (by norm_num) hm⟩

lemma snap_to_frame_grid_mono {a b fr : ℚ} (hfr : 0 < fr) (h : a ≤ b) :
    snap_to_frame_grid a fr ≤ snap_to_frame_grid b fr := by
  unfold snap_to_frame_grid
  have hrQ : ((roundHalfEven (a * fr) : ℤ) : ℚ) ≤ ((roundHalfEven (b * fr) : ℤ) : ℚ) := by
    exact_mod_cast roundHalfEven_mono (mul_le_mul_of_nonneg_right h (le_of_lt hfr))
  exact (div_le_div_iff_of_pos_right hfr).mpr hrQ

/-- C3 (amended): `snap_to_frame_grid` maps `s` to the frame-grid point
nearest to `s`, breaking exact half-frame ties toward the *even* frame index
(banker's rounding, Python `round`), not upward as round-half-up would. -/
theorem snap_to_frame_grid_nearest_tie_even (s fr : ℚ) (hfr : 0 < fr) :
    ∃ n : ℤ, snap_to_frame_grid s fr = (n : ℚ) / fr
      ∧ (∀ m : ℤ, |s - (n : ℚ) / fr| ≤ |s - (m : ℚ) / fr|)
      ∧ (s * fr - (⌊s * fr⌋ : ℚ) = 1/2 → n % 2 = 0) := by
  refine ⟨roundHalfEven (s * fr), rfl, ?_, ?_⟩
  · intro m
    have key : ∀ k : ℤ, s - (k : ℚ) / fr = (s * fr - k) / fr := by
      intro k
      field_simp
    rw [key, key, abs_div, abs_div, abs_of_pos hfr]
    exact (div_le_div_iff_of_pos_right hfr).mpr (roundHalfEven_nearest (s * fr) m)
  · intro htie
    have hn : roundHalfEven (s * fr)
        = if ⌊s * fr⌋ % 2 = 0 then ⌊s * fr⌋ else ⌊s * fr⌋ + 1 := by
      unfold roundHalfEven
      rw [if_neg (by rw [htie]; norm_num), if_neg (by rw [htie]; norm_num)]
    rw [hn]
    split <;> omega

/-- C3 (counterexample): at `s = 0.05`, `fr = 50` the product is exactly
`2.5`; the code rounds it to frame 2 (ties to even), giving `0.04`, not to
frame 3 (`0.06`) as round-half-up would. -/
theorem snap_to_frame_grid_tie_goes_down :
    snap_to_frame_grid (1/20) 50 = 1/25 ∧ (1/25 : ℚ) ≠ 3/50 := by
  constructor
  · unfold snap_to_frame_grid
    have h : roundHalfEven ((1/20 : ℚ) * 50) = 2 :=
      roundHalfEven_eq_tie (by norm_num) (by norm_num)
    rw [h]
    norm_num
  · norm_num

/-- C3 (witness): the nearest/tie-even theorem applied at `s = 0.3`, `fr = 50`. -/
theorem snap_to_frame_grid_nearest_witness :
    (0 : ℚ) < 50 ∧ ∃ n : ℤ, snap_to_frame_grid (3/10) 50 = (n : ℚ) / 50
      ∧ (∀ m : ℤ, |3/10 - (n : ℚ) / 50| ≤ |3/10 - (m : ℚ) / 50|)
      ∧ ((3/10 : ℚ) * 50 - (⌊(3/10 : ℚ) * 50⌋ : ℚ) = 1/2 → n % 2 = 0) :=
  ⟨by norm_num, snap_to_frame_grid_nearest_tie_even (3/10) 50 (by norm_num)⟩

/-- Timeline total-duration computation:
`timeline_duration_sec = snap_to_frame_grid(max(asset_native_duration_sec,
max_event_time_sec), frame_rate)` from `src/avtools/audio/fcpxml.py` lines
174-177 and `src/avtools/video/fcpxml.py` lines 216-218. -/
def timeline_duration (asset_native_duration_sec max_event_time_sec : ℚ)
    (frame_rate : ℚ) : ℚ :=
  snap_to_frame_grid (max asset_native_duration_sec max_event_time_sec) frame_rate

/-- C4 (amended): the computed total duration is frame-snapped, is at least
every frame-snapped event end time, and is at least the *snapped* native
duration — but not necessarily at least the raw native duration itself,
because `snap_to_frame_grid` rounds to the nearest frame and may round
down (see the counterexample). -/
theorem timeline_duration_bounds (native maxEv fr : ℚ) (hfr : 0 < fr)
    (hgrid : onGrid maxEv fr) :
    onGrid (timeline_duration native maxEv fr) fr
      ∧ maxEv ≤ timeline_duration native maxEv fr
      ∧ snap_to_frame_grid native fr ≤ timeline_duration native maxEv fr := by
  obtain ⟨k, hk⟩ := hgrid
  refine ⟨⟨roundHalfEven (max native maxEv * fr), rfl⟩, ?_, ?_⟩
  · have hkfr : maxEv * fr = (k : ℚ) := by
      rw [hk, div_mul_cancel₀ _ (ne_of_gt hfr)]
    have h1 : roundHalfEven (maxEv * fr) = k := by
      rw [hkfr, roundHalfEven_intCast]
    have h2 : roundHalfEven (maxEv * fr) ≤ roundHalfEven (max native maxEv * fr) :=
      roundHalfEven_mono (mul_le_mul_of_nonneg_right (le_max_right _ _) (le_of_lt hfr))
    rw [h1] at h2
    have h3 : ((k : ℤ) : ℚ) ≤ ((roundHalfEven (max native maxEv * fr) : ℤ) : ℚ) := by
      exact_mod_cast h2
    calc maxEv = (k : ℚ) / fr := hk
      _ ≤ (roundHalfEven (max native maxEv * fr) : ℚ) / fr :=
          (div_le_div_iff_of_pos_right hfr).mpr h3
      _ = timeline_duration native maxEv fr := rfl
  · exact snap_to_frame_grid_mono hfr (le_max_left _ _)

/-- C4 (counterexample): with native duration `1.004` s, no events, and
frame rate 50, the computed timeline duration is `1.0` s, which is *less*
than the native duration — `snap_to_frame_grid` rounded `50.2` frames down
to `50`. -/
theorem timeline_duration_lt_native :
    timeline_duration (251/250) 0 50 = 1
      ∧ ¬ ((251/250 : ℚ) ≤ timeline_duration (251/250) 0 50) := by
  have h : timeline_duration (251/250) 0 50 = 1 := by
    unfold timeline_duration snap_to_frame_grid
    have hm : max (251/250 : ℚ) 0 = 251/250 := max_eq_left (by norm_num)
    rw [hm]
    have hr : roundHalfEven ((251/250 : ℚ) * 50) = 50 :=
      roundHalfEven_eq_of_abs_lt (by norm_num [abs_lt])
    rw [hr]
    norm_num
  exact ⟨h, by rw [h]; norm_num⟩

/-- C4 (witness): the bounds theorem applied at native `1`, frame-snapped
max event time `0.5`, frame rate 50. -/
theorem timeline_duration_bounds_witness :
    ((0 : ℚ) < 50 ∧ onGrid (1/2) 50)
      ∧ (onGrid (timeline_duration 1 (1/2) 50) 50
        ∧ (1/2 : ℚ) ≤ timeline_duration 1 (1/2) 50
        ∧ snap_to_frame_grid 1 50 ≤ timeline_duration 1 (1/2) 50) :=
  ⟨⟨by norm_num, ⟨25, by norm_num⟩⟩,
    timeline_duration_bounds 1 (1/2) 50 (by norm_num) ⟨25, by norm_num⟩⟩

/-- Model of `seconds_to_timeline_time(seconds, timebase, frame_rate, round_up)` from
`src/avtools/common/fcpxml_utils.py` lines 27-48, modelled as the integer
numerator of the returned `"N/{timebase}s"` string: frames are the ceiling
(if `round_up`) or the half-up rounding of `seconds * frame_rate`, and the
numerator is `int(frames * (timebase / frame_rate))` (truncation). -/
def seconds_to_timeline_time (seconds : ℚ) (timebase : ℕ) (frame_rate : ℚ)
    (round_up : Bool) : ℤ :=
  let frames : ℤ :=
    if round_up then ⌈seconds * frame_rate⌉ else roundHalfUp (seconds * frame_rate)
  let timebase_units_per_frame : ℚ := (timebase : ℚ) / frame_rate
  truncInt ((frames : ℚ) * timebase_units_per_frame)

/-- The duplicated `seconds_to_timeline_time` from
`src/avtools/audio/json_to_fcpxml.py` lines 28-44: same frame computation,
but the numerator is rounded half-up and then clamped with `max(0, ...)`. -/
def seconds_to_timeline_time_json (seconds : ℚ) (timebase : ℕ) (frame_rate : ℚ)
    (round_up : Bool) : ℤ :=
  let total_frames : ℤ :=
    if round_up then ⌈seconds * frame_rate⌉ else roundHalfUp (seconds * frame_rate)
  let frame_duration_in_tb : ℚ := (timebase : ℚ) / frame_rate
  max 0 (roundHalfUp ((total_frames : ℤ) * frame_duration_in_tb))

lemma truncInt_intCast (n : ℤ) : truncInt ((n : ℤ) : ℚ) = n := by
  unfold truncInt
  rw [Rat.num_intCast, Rat.den_intCast]
  exact Int.tdiv_one n

/-- C7 (amended): the `json_to_fcpxml.py` variant never returns a negative
numerator (it clamps with `max(0, ...)`); the shared `fcpxml_utils.py`
variant has no clamp, and is nonnegative only when `seconds` and
`frame_rate` are — for negative seconds it returns a negative numerator
(see the counterexample). -/
theorem seconds_to_timeline_time_nonneg (seconds : ℚ) (timebase : ℕ)
    (frame_rate : ℚ) (round_up : Bool) :
    0 ≤ seconds_to_timeline_time_json seconds timebase frame_rate round_up
      ∧ (0 ≤ seconds → 0 ≤ frame_rate →
          0 ≤ seconds_to_timeline_time seconds timebase frame_rate round_up) := by
  constructor
  · exact le_max_left 0 _
  · intro hs hfr
    unfold seconds_to_timeline_time
    have hprod : (0 : ℚ) ≤ seconds * frame_rate := mul_nonneg hs hfr
    have hframes : (0 : ℤ) ≤
        (if round_up then ⌈seconds * frame_rate⌉ else roundHalfUp (seconds * frame_rate)) := by
      split
      · exact Int.ceil_nonneg hprod
      · exact roundHalfUp_nonneg hprod
    apply truncInt_nonneg
    apply mul_nonneg
    · exact_mod_cast hframes
    · exact div_nonneg (by positivity) hfr

/-- C7 (counterexample): the shared `fcpxml_utils.py` conversion has no
floor at 0 — at `seconds = -1`, timebase 50000, frame rate 50 it returns
the numerator `-50000`, i.e. the string `"-50000/50000s"`. -/
theorem seconds_to_timeline_time_returns_negative :
    seconds_to_timeline_time (-1) 50000 50 true = -50000
      ∧ seconds_to_timeline_time (-1) 50000 50 true < 0 := by
  have heval : seconds_to_timeline_time (-1) 50000 50 true = -50000 := by
    unfold seconds_to_timeline_time
    have h1 : ((-1 : ℚ)) * 50 = ((-50 : ℤ) : ℚ) := by norm_num
    rw [if_pos rfl, h1, Int.ceil_intCast]
    show truncInt (((-50 : ℤ) : ℚ) * (((50000:ℕ) : ℚ) / 50)) = (-50000 : ℤ)
    have h2 : (((-50 : ℤ) : ℚ)) * (((50000:ℕ) : ℚ) / 50) = ((-50000 : ℤ) : ℚ) := by
      norm_num
    rw [h2, truncInt_intCast]
  exact ⟨heval, by rw [heval]; norm_num⟩

/-- C7 (witness): nonnegativity applied at `seconds = 0.3`, timebase 50000,
frame rate 50, `round_up = false`. -/
theorem seconds_to_timeline_time_nonneg_witness :
    0 ≤ seconds_to_timeline_time_json (3/10) 50000 50 false
      ∧ ((0:ℚ) ≤ 3/10 ∧ (0:ℚ) ≤ 50
        ∧ 0 ≤ seconds_to_timeline_time (3/10) 50000 50 false) := by
  have h := seconds_to_timeline_time_nonneg (3/10) 50000 50 false
  exact ⟨h.1, by norm_num, by norm_num, h.2 (by norm_num) (by norm_num)⟩

/-- Model of `bisect.bisect_left(downbeats_list, x)` as called in
`src/avtools/audio/fcpxml.py` line 161: on an ascending-sorted list, the
index of the leftmost element `≥ x` (the list length if there is none).
The linear recursion here computes exactly that index, which is what the
binary search returns on sorted input. -/
def bisect_left : List ℚ → ℚ → ℕ
  | [], _ => 0
  | d :: rest, x => if d < x then bisect_left rest x + 1 else 0

/-- The per-segment downbeat adjustment from `src/avtools/audio/fcpxml.py`
lines 151-164 (duplicated in `src/avtools/audio/json_to_fcpxml.py` lines
169-182 and `src/avtools/audio/fcpxml_otio.py` lines 121-132): keep the
snapped start if the downbeat list is empty or the start is itself a
downbeat; otherwise move to `downbeats_list[bisect_left(downbeats_list,
start)]` when that index is in range, else keep the snapped start. -/
def adjust_start (downbeats : List ℚ) (s : ℚ) : ℚ :=
  if downbeats.isEmpty then s
  else if s ∈ downbeats then s
  else if h : bisect_left downbeats s < downbeats.length then
    downbeats[bisect_left downbeats s]
  else s

lemma bisect_left_le_length (l : List ℚ) (x : ℚ) : bisect_left l x ≤ l.length := by
  induction l with
  | nil => simp [bisect_left]
  | cons d rest ih =>
      unfold bisect_left
      split
      · simpa using ih
      · simp

lemma bisect_left_lt_length {l : List ℚ} {x : ℚ}
    (hex : ∃ d ∈ l, x ≤ d) : bisect_left l x < l.length := by
  induction l with
  | nil => obtain ⟨d, hd, _⟩ := hex; simp at hd
  | cons d rest ih =>
      unfold bisect_left
      split
      · rename_i hdx
        obtain ⟨d', hd', hxd'⟩ := hex
        rcases List.mem_cons.mp hd' with rfl | hmem
        · exact absurd hxd' (not_le.mpr hdx)
        · have := ih ⟨d', hmem, hxd'⟩
          simpa using this
      · simp

lemma bisect_left_get_ge {l : List ℚ} {x : ℚ}
    (h : bisect_left l x < l.length) : x ≤ l[bisect_left l x] := by
  induction l with
  | nil => simp at h
  | cons d rest ih =>
      by_cases hdx : d < x
      · simp only [bisect_left, if_pos hdx, List.getElem_cons_succ]
        apply ih
      · simp only [bisect_left, if_neg hdx, List.getElem_cons_zero]
        exact le_of_not_lt hdx

lemma bisect_left_min {l : List ℚ} {x d' : ℚ} (hs : List.Sorted (· ≤ ·) l)
    (h : bisect_left l x < l.length) (hd : d' ∈ l) (hxd : x ≤ d') :
    l[bisect_left l x] ≤ d' := by
  induction l with
  | nil => simp at h
  | cons d rest ih =>
      obtain ⟨hhead, htail⟩ := List.sorted_cons.mp hs
      by_cases hdx : d < x
      · simp only [bisect_left, if_pos hdx, List.getElem_cons_succ]
        have h' : bisect_left rest x < rest.length := by
          simp only [bisect_left, if_pos hdx, List.length_cons] at h
          omega
        rcases List.mem_cons.mp hd with rfl | hmem
        · exact absurd hxd (not_le.mpr hdx)
        · exact ih htail h' hmem
      · simp only [bisect_left, if_neg hdx, List.getElem_cons_zero]
        rcases List.mem_cons.mp hd with rfl | hmem
        · exact le_refl _
        · exact hhead d' hmem

lemma bisect_left_eq_length {l : List ℚ} {x : ℚ} (hall : ∀ d ∈ l, d < x) :
    bisect_left l x = l.length := by
  induction l with
  | nil => rfl
  | cons d rest ih =>
      unfold bisect_left
      rw [if_pos (hall d (List.mem_cons_self d rest))]
      simp [ih (fun d' hd' => hall d' (List.mem_cons_of_mem d hd'))]

/-- C6: segment-to-downbeat snapping.  With the downbeat list sorted
ascending (as the code builds it): a snapped start that is itself a downbeat
is kept; otherwise the adjusted start is the leftmost downbeat at or after
the snapped start; and if every downbeat lies strictly before the snapped
start, the snapped start is kept unchanged. -/
theorem adjust_start_spec (downbeats : List ℚ) (s : ℚ)
    (hs : List.Sorted (· ≤ ·) downbeats) :
    (s ∈ downbeats → adjust_start downbeats s = s)
      ∧ (s ∉ downbeats → (∃ d ∈ downbeats, s ≤ d) →
          adjust_start downbeats s ∈ downbeats ∧ s ≤ adjust_start downbeats s
            ∧ ∀ d ∈ downbeats, s ≤ d → adjust_start downbeats s ≤ d)
      ∧ ((∀ d ∈ downbeats, d < s) → adjust_start downbeats s = s) := by
  refine ⟨?_, ?_, ?_⟩
  · intro hmem
    unfold adjust_start
    have hne : downbeats ≠ [] := List.ne_nil_of_mem hmem
    rw [if_neg (by simpa using hne), if_pos hmem]
  · intro hmem hex
    have hlt := bisect_left_lt_length hex
    have hne : downbeats ≠ [] := by
      obtain ⟨d, hd, _⟩ := hex
      exact List.ne_nil_of_mem hd
    unfold adjust_start
    rw [if_neg (by simpa using hne), if_neg hmem, dif_pos hlt]
    exact ⟨List.getElem_mem hlt, bisect_left_get_ge hlt,
      fun d hd hxd => bisect_left_min hs hlt hd hxd⟩
  · intro hall
    rcases eq_or_ne downbeats [] with rfl | hne
    · unfold adjust_start
      simp
    · have hmem : s ∉ downbeats := fun hmem => lt_irrefl s (hall s hmem)
      have hlen := bisect_left_eq_length hall
      unfold adjust_start
      rw [if_neg (by simpa using hne), if_neg hmem, dif_neg (by omega)]

/-- C6 (witness): Scenario B of the spec — segment start `0.3`, downbeats
`[0.0, 0.5, 1.0]`: the adjusted start is a downbeat at or after `0.3`
(namely `0.5`). -/
theorem adjust_start_witness :
    (3/10 : ℚ) ∉ ([0, 1/2, 1] : List ℚ)
      ∧ adjust_start [0, 1/2, 1] (3/10) ∈ ([0, 1/2, 1] : List ℚ)
      ∧ (3/10 : ℚ) ≤ adjust_start [0, 1/2, 1] (3/10)
      ∧ adjust_start [0, 1/2, 1] (3/10) ≤ 1/2 := by
  have hs : List.Sorted (· ≤ ·) ([0, 1/2, 1] : List ℚ) := by
    norm_num [List.sorted_cons]
  have hmem : (3/10 : ℚ) ∉ ([0, 1/2, 1] : List ℚ) := by norm_num
  have hhalf : (1/2 : ℚ) ∈ ([0, 1/2, 1] : List ℚ) := by norm_num
  have h := (adjust_start_spec [0, 1/2, 1] (3/10) hs).2.1 hmem
    ⟨1/2, hhalf, by norm_num⟩
  exact ⟨hmem, h.1, h.2.1, h.2.2 (1/2) hhalf (by norm_num)⟩

/-- The audio placeholder-assembly loop from `src/avtools/audio/fcpxml.py`
lines 230-268 (duplicated in `src/avtools/audio/json_to_fcpxml.py` lines
248-286), reduced to the emitted time data: the input is the list of
`adjusted_start` values in original segment order plus the timeline
duration; each element's end is the next element's adjusted start (the
timeline duration for the last), clamped below by its own start
(`max(seg_start_sec, placeholder_end_sec)`), and elements whose duration is
`<= 0` are skipped.  Returns the emitted `(start_sec, end_sec)` pairs. -/
def audioPlaceholders : List ℚ → ℚ → List (ℚ × ℚ)
  | [], _ => []
  | [s], timeline_duration_sec =>
      let e := max s timeline_duration_sec
      if e - s ≤ 0 then [] else [(s, e)]
  | s :: s2 :: rest, timeline_duration_sec =>
      let e := max s s2
      if e - s ≤ 0 then audioPlaceholders (s2 :: rest) timeline_duration_sec
      else (s, e) :: audioPlaceholders (s2 :: rest) timeline_duration_sec

/-- The video shot-clip loop from `src/avtools/video/fcpxml.py` lines
262-301 (same logic in `src/avtools/video/fcpxml_otio.py` lines 173-197),
reduced to the emitted time data: input is the list of processed
`(start_sec, end_sec)` shots (already sorted by start); for all but the
last shot the end is extended to the next shot's start, the last keeps its
own snapped end.  Every shot is emitted — there is no zero-duration skip. -/
def videoShotClips : List (ℚ × ℚ) → List (ℚ × ℚ)
  | [] => []
  | [sh] => [(sh.1, sh.2)]
  | sh :: sh2 :: rest => (sh.1, sh2.1) :: videoShotClips (sh2 :: rest)

/-- Gaplessness of a lane: each element's end is the next element's start. -/
def gapless (elems : List (ℚ × ℚ)) : Prop :=
  List.Chain' (fun a b => a.2 = b.1) elems

/-- The downbeat-marker attachment loop from `src/avtools/audio/fcpxml.py`
lines 281-300: walk the (sorted) downbeat list, `continue` past downbeats
before the placeholder start, `break` at the first downbeat at or past the
placeholder end, and attach each remaining downbeat at its offset relative
to the placeholder start.  Returns the attached relative offsets. -/
def attachDownbeats : List ℚ → ℚ → ℚ → List ℚ
  | [], _, _ => []
  | d :: rest, placeholder_start, placeholder_end =>
      if d < placeholder_start then attachDownbeats rest placeholder_start placeholder_end
      else if placeholder_end ≤ d then []
      else (d - placeholder_start) :: attachDownbeats rest placeholder_start placeholder_end

/-- Model of `create_fcpxml_from_data` of `src/avtools/audio/fcpxml.py` (lines
113-268) reduced to its time data: snap beats and segment bounds, sort the
snapped downbeats, adjust each segment start to the next downbeat, compute
`max_event_time_sec` by folding `max` from 0 over the snapped segment ends
and then the snapped beats, snap the timeline duration of
`max(native, max_event)`, and assemble the placeholder lane.  The audio
converter accepts empty beat/downbeat/segment lists and always succeeds
(given media info), returning the timeline duration and the emitted
placeholder `(start, end)` pairs. -/
def create_fcpxml_from_data_audio (beats downbeats : List ℚ)
    (segments : List (ℚ × ℚ)) (asset_native_duration_sec : ℚ)
    (frame_rate : ℚ) : Option (ℚ × List (ℚ × ℚ)) :=
  let beatsS := beats.map (fun b => snap_to_frame_grid b frame_rate)
  let downbeats_list :=
    (downbeats.map (fun d => snap_to_frame_grid d frame_rate)).mergeSort
      (fun a b => decide (a ≤ b))
  let adjusted_segments := segments.map (fun seg =>
    adjust_start downbeats_list (snap_to_frame_grid seg.1 frame_rate))
  let seg_ends := segments.map (fun seg => snap_to_frame_grid seg.2 frame_rate)
  let max_event_time_sec := beatsS.foldl max (seg_ends.foldl max 0)
  let timeline_duration_sec :=
    snap_to_frame_grid (max asset_native_duration_sec max_event_time_sec) frame_rate
  some (timeline_duration_sec, audioPlaceholders adjusted_segments timeline_duration_sec)

/-- Model of `create_fcpxml_from_data` of `src/avtools/video/fcpxml.py` (lines
113-309) reduced to its time data: an empty shot list is rejected
(`"Error: No shots found in the JSON data."`, returns `False` — modelled as
`none`); otherwise shots are snapped to `(start, start+duration)` pairs,
sorted by start, `max_event_time_sec` is the maximum snapped end, the
timeline duration is snapped, and the shot-clip lane is assembled. -/
def create_fcpxml_from_data_video (shots : List (ℚ × ℚ))
    (asset_native_duration_sec : ℚ) (frame_rate : ℚ) :
    Option (ℚ × List (ℚ × ℚ)) :=
  if shots.isEmpty then none
  else
    let processed_shots :=
      (shots.map (fun sh =>
        (snap_to_frame_grid sh.1 frame_rate,
          snap_to_frame_grid (sh.1 + sh.2) frame_rate))).mergeSort
        (fun a b => decide (a.1 ≤ b.1))
    let max_event_time_sec : ℚ :=
      match processed_shots.map Prod.snd with
      | [] => 0
      | e :: es => es.foldl max e
    let timeline_duration_sec :=
      snap_to_frame_grid (max asset_native_duration_sec max_event_time_sec) frame_rate
    some (timeline_duration_sec, videoShotClips processed_shots)

lemma audioPlaceholders_head_fst : ∀ (l : List ℚ) (s total : ℚ) (p : ℚ × ℚ),
    List.Sorted (· ≤ ·) (s :: l) →
    (audioPlaceholders (s :: l) total).head? = some p → p.1 = s := by
  intro l
  induction l with
  | nil =>
      intro s total p _ hh
      simp only [audioPlaceholders] at hh
      split at hh
      · simp at hh
      · simp only [List.head?_cons, Option.some.injEq] at hh
        rw [← hh]
  | cons s2 rest ih =>
      intro s total p hsort hh
      obtain ⟨hhead, htail⟩ := List.sorted_cons.mp hsort
      have hss2 : s ≤ s2 := hhead s2 (List.mem_cons_self s2 rest)
      have hmax : max s s2 = s2 := max_eq_right hss2
      simp only [audioPlaceholders, hmax] at hh
      split at hh
      · rename_i hc
        have heq : s2 = s := le_antisymm (by linarith) hss2
        rw [ih s2 total p htail hh, heq]
      · simp only [List.head?_cons, Option.some.injEq] at hh
        rw [← hh]

lemma videoShotClips_gapless : ∀ shots : List (ℚ × ℚ), gapless (videoShotClips shots) := by
  intro shots
  induction shots with
  | nil => simp [videoShotClips, gapless]
  | cons sh rest ih =>
      cases rest with
      | nil => simp [videoShotClips, gapless]
      | cons sh2 rest2 =>
          rw [show videoShotClips (sh :: sh2 :: rest2)
              = (sh.1, sh2.1) :: videoShotClips (sh2 :: rest2) from rfl]
          rw [gapless, List.chain'_cons']
          refine ⟨?_, ih⟩
          intro b hb
          cases rest2 with
          | nil =>
              simp only [videoShotClips, List.head?_cons, Option.mem_def,
                Option.some.injEq] at hb
              rw [← hb]
          | cons sh3 rest3 =>
              simp only [videoShotClips, List.head?_cons, Option.mem_def,
                Option.some.injEq] at hb
              rw [← hb]

lemma audioPlaceholders_gapless : ∀ (starts : List ℚ) (total : ℚ),
    List.Sorted (· ≤ ·) starts → gapless (audioPlaceholders starts total) := by
  intro starts
  induction starts with
  | nil => intro total _; simp [audioPlaceholders, gapless]
  | cons s rest ih =>
      intro total hsort
      cases rest with
      | nil =>
          simp only [audioPlaceholders]
          split
          · simp [gapless]
          · simp [gapless]
      | cons s2 rest2 =>
          obtain ⟨hhead, htail⟩ := List.sorted_cons.mp hsort
          have hss2 : s ≤ s2 := hhead s2 (List.mem_cons_self s2 rest2)
          have hmax : max s s2 = s2 := max_eq_right hss2
          simp only [audioPlaceholders, hmax]
          split
          · exact ih total htail
          · rw [gapless, List.chain'_cons']
            refine ⟨?_, ih total htail⟩
            intro b hb
            exact (audioPlaceholders_head_fst rest2 s2 total b htail
              (Option.mem_def.mp hb)).symm

/-- C1 (amended): gaplessness of the secondary lanes.  The video shot lane
is always gapless (shots are sorted by start before assembly, and every
clip's end is the next clip's start).  The audio placeholder lane is
gapless provided the adjusted segment starts are in nondecreasing order —
which holds whenever the input segments are sorted by start, since snapping
and downbeat adjustment are monotone — but the audio converter never sorts
its segments, so out-of-order segments break gaplessness (see the
counterexample). -/
theorem secondary_lane_gapless :
    (∀ shots : List (ℚ × ℚ), gapless (videoShotClips shots))
      ∧ (∀ (starts : List ℚ) (total : ℚ),
          List.Sorted (· ≤ ·) starts → gapless (audioPlaceholders starts total)) :=
  ⟨videoShotClips_gapless, audioPlaceholders_gapless⟩

/-- C1 (witness): gaplessness instantiated on Scenario C shots
`[(0,1), (1,3)]` and on sorted audio starts `[0, 1]` with total `2`. -/
theorem secondary_lane_gapless_witness :
    gapless (videoShotClips [(0, 1), (1, 3)])
      ∧ (List.Sorted (· ≤ ·) ([0, 1] : List ℚ)
        ∧ gapless (audioPlaceholders [0, 1] 2)) := by
  have hs : List.Sorted (· ≤ ·) ([0, 1] : List ℚ) := by
    norm_num [List.sorted_cons]
  exact ⟨secondary_lane_gapless.1 [(0, 1), (1, 3)], hs,
    secondary_lane_gapless.2 [0, 1] 2 hs⟩

/-- C1 (counterexample): with out-of-order segments the audio placeholder
lane is not gapless.  Segments starting at 0, 2, 1 (ends 3) with no
downbeats at 1 fps: the middle element is clamped to zero duration and
dropped, and the emitted lane is `[(0,2), (1,3)]` — the first element's end
(2) is not the next element's start (1); the lane even overlaps. -/
theorem audio_lane_gap_counterexample :
    create_fcpxml_from_data_audio [] [] [(0, 3), (2, 3), (1, 3)] 3 1
      = some (3, [(0, 2), (1, 3)])
      ∧ ¬ gapless [((0:ℚ), (2:ℚ)), ((1:ℚ), (3:ℚ))] := by
  constructor
  · have hsnap : ∀ n : ℤ, snap_to_frame_grid ((n : ℤ) : ℚ) 1 = ((n : ℤ) : ℚ) := by
      intro n
      unfold snap_to_frame_grid
      rw [mul_one, roundHalfEven_intCast]
      norm_num
    have h0 : snap_to_frame_grid (0 : ℚ) 1 = 0 := by
      have := hsnap 0; norm_num at this; exact this
    have h1 : snap_to_frame_grid (1 : ℚ) 1 = 1 := by
      have := hsnap 1; norm_num at this; exact this
    have h2 : snap_to_frame_grid (2 : ℚ) 1 = 2 := by
      have := hsnap 2; norm_num at this; exact this
    have h3 : snap_to_frame_grid (3 : ℚ) 1 = 3 := by
      have := hsnap 3; norm_num at this; exact this
    simp only [create_fcpxml_from_data_audio, List.map_cons, List.map_nil,
      List.mergeSort_nil, h0, h1, h2, h3, List.foldl_cons, List.foldl_nil]
    norm_num [adjust_start, audioPlaceholders, max_def]
    rw [h3]
    norm_num
  · simp [gapless, List.chain'_cons]

/-- C5 (amended): the audio assembler drops every placeholder whose
computed duration is `<= 0`: each emitted audio placeholder has strictly
positive duration.  (The video assembler has no such drop and emits
zero-duration shot clips unchanged; see the counterexample.) -/
theorem audio_placeholders_positive_duration :
    ∀ (starts : List ℚ) (total : ℚ), ∀ p ∈ audioPlaceholders starts total,
      p.1 < p.2 := by
  intro starts
  induction starts with
  | nil => intro total p hp; simp [audioPlaceholders] at hp
  | cons s rest ih =>
      intro total p hp
      cases rest with
      | nil =>
          simp only [audioPlaceholders] at hp
          split at hp
          · simp at hp
          · rename_i hc
            push_neg at hc
            simp only [List.mem_singleton] at hp
            rw [hp]
            simpa using hc
      | cons s2 rest2 =>
          simp only [audioPlaceholders] at hp
          split at hp
          · exact ih total p hp
          · rename_i hc
            push_neg at hc
            rcases List.mem_cons.mp hp with rfl | hmem
            · simpa using hc
            · exact ih total p hmem

/-- C5 (witness): the positive-duration theorem applied to the single
emitted placeholder of starts `[0]`, total `1`. -/
theorem audio_placeholders_positive_duration_witness :
    ((0:ℚ), (1:ℚ)) ∈ audioPlaceholders [0] 1 ∧ (0:ℚ) < 1 := by
  have hmem : ((0:ℚ), (1:ℚ)) ∈ audioPlaceholders [0] 1 := by
    norm_num [audioPlaceholders, max_def]
  exact ⟨hmem, audio_placeholders_positive_duration [0] 1 (0, 1) hmem⟩

/-- C5 (counterexample): the video converter does not drop zero-duration
elements.  A single shot with `time_offset = 0`, `time_duration = 0` at
1 fps and native duration 1 s is emitted as the zero-duration clip
`(0, 0)` — one element, not zero as the claim requires. -/
theorem video_zero_duration_emitted :
    create_fcpxml_from_data_video [(0, 0)] 1 1 = some (1, [(0, 0)])
      ∧ (0 : ℚ) - 0 ≤ 0 := by
  constructor
  · have h0 : snap_to_frame_grid (0 : ℚ) 1 = 0 := by
      unfold snap_to_frame_grid
      rw [mul_one, show (0:ℚ) = ((0:ℤ):ℚ) by norm_num, roundHalfEven_intCast]
      norm_num
    have h1 : snap_to_frame_grid (1 : ℚ) 1 = 1 := by
      unfold snap_to_frame_grid
      rw [mul_one, show (1:ℚ) = ((1:ℤ):ℚ) by norm_num, roundHalfEven_intCast]
      norm_num
    simp only [create_fcpxml_from_data_video, List.isEmpty_cons, List.map_cons,
      List.map_nil]
    norm_num [List.mergeSort_singleton, h0, h1, videoShotClips, max_def]
  · norm_num

/-- C9 (amended): the audio converter accepts empty beat/downbeat/segment
lists: the conversion succeeds and the timeline consists of the main
element alone (no placeholders), with duration `snap(native)`.  (The video
converter rejects an empty shot list; see the counterexample.) -/
theorem audio_accepts_empty_event_lists (native fr : ℚ) (hnative : 0 ≤ native) :
    create_fcpxml_from_data_audio [] [] [] native fr
      = some (snap_to_frame_grid native fr, []) := by
  simp only [create_fcpxml_from_data_audio, List.map_nil, List.mergeSort_nil,
    List.foldl_nil, audioPlaceholders]
  rw [max_eq_left hnative]

/-- C9 (counterexample): the video converter does not accept an empty shot
list — `create_fcpxml_from_data` prints `"Error: No shots found in the JSON
data."` and returns `False` (modelled as `none`), so an empty shot list is
an erroneous outcome, not a valid one. -/
theorem video_rejects_empty_shots :
    create_fcpxml_from_data_video [] 1 1 = none := by
  simp [create_fcpxml_from_data_video]

/-- C9 (witness): the audio converter on all-empty event lists with native
duration 1 s at 50 fps. -/
theorem audio_accepts_empty_event_lists_witness :
    (0:ℚ) ≤ 1 ∧ create_fcpxml_from_data_audio [] [] [] 1 50
      = some (snap_to_frame_grid 1 50, []) :=
  ⟨by norm_num, audio_accepts_empty_event_lists 1 50 (by norm_num)⟩

/-- C10: downbeat markers attached to a placeholder stay in range.  Every
attached relative offset `o` satisfies `0 ≤ o < placeholder duration`; and
on a sorted downbeat list the attached offsets are exactly the downbeats in
`[placeholder_start, placeholder_end)` shifted to be relative to the
placeholder start (the scan skips earlier downbeats and stops at the first
one at or past the end). -/
theorem attachDownbeats_in_range (dbs : List ℚ) (ps pe : ℚ) :
    (∀ o ∈ attachDownbeats dbs ps pe, 0 ≤ o ∧ o < pe - ps)
      ∧ (List.Sorted (· ≤ ·) dbs →
          attachDownbeats dbs ps pe
            = (dbs.filter (fun d => decide (ps ≤ d ∧ d < pe))).map
                (fun d => d - ps)) := by
  induction dbs with
  | nil => exact ⟨fun o ho => by simp [attachDownbeats] at ho, fun _ => rfl⟩
  | cons d rest ih =>
      constructor
      · intro o ho
        simp only [attachDownbeats] at ho
        split at ho
        · exact ih.1 o ho
        · split at ho
          · simp at ho
          · rename_i hge hlt
            push_neg at hge hlt
            rcases List.mem_cons.mp ho with rfl | hmem
            · constructor
              · linarith
              · linarith
            · exact ih.1 o hmem
      · intro hsort
        obtain ⟨hhead, htail⟩ := List.sorted_cons.mp hsort
        simp only [attachDownbeats]
        split
        · rename_i hlt
          rw [ih.2 htail]
          have hfilter : (d :: rest).filter (fun d => decide (ps ≤ d ∧ d < pe))
              = rest.filter (fun d => decide (ps ≤ d ∧ d < pe)) := by
            rw [List.filter_cons_of_neg]
            simp
            intro hps
            linarith
          rw [hfilter]
        · split
          · rename_i hge hend
            push_neg at hge
            have hfilter : (d :: rest).filter (fun d => decide (ps ≤ d ∧ d < pe)) = [] := by
              rw [List.filter_eq_nil_iff]
              intro a ha
              simp only [decide_eq_true_eq, not_and, not_lt]
              intro _
              rcases List.mem_cons.mp ha with rfl | hmem
              · exact hend
              · exact le_trans hend (hhead a hmem)
            rw [hfilter]
            rfl
          · rename_i hge hend
            push_neg at hge hend
            rw [ih.2 htail]
            have hfilter : (d :: rest).filter (fun d => decide (ps ≤ d ∧ d < pe))
                = d :: rest.filter (fun d => decide (ps ≤ d ∧ d < pe)) := by
              rw [List.filter_cons_of_pos]
              simp only [decide_eq_true_eq]
              exact ⟨hge, hend⟩
            rw [hfilter, List.map_cons]
  
/-- C10 (witness): downbeats `[0, 0.5, 1]` attached to the placeholder
`[0.5, 1)`: the single attached offset 0 lies in `[0, duration)`. -/
theorem attachDownbeats_in_range_witness :
    (0:ℚ) ∈ attachDownbeats [0, 1/2, 1] (1/2) 1
      ∧ (0 ≤ (0:ℚ) ∧ (0:ℚ) < 1 - 1/2) := by
  have hmem : (0:ℚ) ∈ attachDownbeats [0, 1/2, 1] (1/2) 1 := by
    norm_num [attachDownbeats]
  exact ⟨hmem, (attachDownbeats_in_range [0, 1/2, 1] (1/2) 1).1 0 hmem⟩

/-- The placeholder elements built by the OTIO-mediated audio emitter,
`src/avtools/audio/fcpxml_otio.py` lines 172-194: the same adjusted starts,
end-extension, clamp and zero-duration skip as the FCPXML-native emitter,
but each element is recorded as `(start_time, duration)` — the fields of
the `elements` dictionaries handed to `create_timeline_from_elements`. -/
def otioAudioPlaceholders : List ℚ → ℚ → List (ℚ × ℚ)
  | [], _ => []
  | [s], timeline_duration_sec =>
      let e := max s timeline_duration_sec
      if e - s ≤ 0 then [] else [(s, e - s)]
  | s :: s2 :: rest, timeline_duration_sec =>
      let e := max s s2
      if e - s ≤ 0 then otioAudioPlaceholders (s2 :: rest) timeline_duration_sec
      else (s, e - s) :: otioAudioPlaceholders (s2 :: rest) timeline_duration_sec

/-- Timeline positions of the clips appended to an OTIO `Track` by
`create_timeline_from_elements` (`src/avtools/common/otio_utils.py` lines
42-87).  An OTIO `Track` is a sequential composition: the k-th appended
clip is placed where the previous clip ended — at the running sum of the
previous clips' durations — while the element's `start_time` only becomes
the clip's `source_range` start (a media in-point), not a timeline
position.  Modelled from the OTIO library's documented `Track`/`Clip`
semantics (an external dependency, not part of `src/`). -/
def otioTrackPositions : List (ℚ × ℚ) → ℚ → List ℚ
  | [], _ => []
  | elem :: rest, t => t :: otioTrackPositions rest (t + elem.2)

/-- Timeline offsets of the placeholder clips in the FCPXML-native audio
emitter: each emitted `<video>` element carries `offset = seg_start_sec`
(`src/avtools/audio/fcpxml.py` lines 248-260). -/
def placeholderOffsetsFcpxml (starts : List ℚ) (total : ℚ) : List ℚ :=
  (audioPlaceholders starts total).map Prod.fst

/-- Timeline positions of the same placeholders after the OTIO-mediated
emitter serializes them onto the video track. -/
def otioPlaceholderPositions (starts : List ℚ) (total : ℚ) : List ℚ :=
  otioTrackPositions (otioAudioPlaceholders starts total) 0

/-- C8 (amended): the two audio emitters share the assembly exactly — for
every input, the OTIO-mediated emitter's `(start_time, duration)` elements
are the FCPXML-native emitter's `(start, end)` elements with the end
rewritten as a duration.  The cross-format identity stops at serialization:
the OTIO emitter appends clips sequentially, so emitted timeline positions
are cumulative durations rather than the absolute starts (see the
counterexample). -/
theorem otio_assembly_matches_fcpxml : ∀ (starts : List ℚ) (total : ℚ),
    otioAudioPlaceholders starts total
      = (audioPlaceholders starts total).map (fun p => (p.1, p.2 - p.1)) := by
  intro starts
  induction starts with
  | nil => intro total; rfl
  | cons s rest ih =>
      intro total
      cases rest with
      | nil =>
          simp only [audioPlaceholders, otioAudioPlaceholders]
          split
          · rfl
          · rfl
      | cons s2 rest2 =>
          simp only [audioPlaceholders, otioAudioPlaceholders]
          split
          · exact ih total
          · rw [List.map_cons, ih total]

/-- C8 (counterexample): the two emitters do not place clip boundaries
identically.  One segment with adjusted start `0.5` and total duration 2:
the FCPXML-native emitter places the placeholder at offset `0.5` s, while
the OTIO-mediated emitter appends it as the first clip of the video track,
at timeline position 0. -/
theorem otio_positions_differ :
    placeholderOffsetsFcpxml [1/2] 2 = [1/2]
      ∧ otioPlaceholderPositions [1/2] 2 = [0]
      ∧ placeholderOffsetsFcpxml [1/2] 2 ≠ otioPlaceholderPositions [1/2] 2 := by
  refine ⟨?_, ?_, ?_⟩
  · norm_num [placeholderOffsetsFcpxml, audioPlaceholders, max_def]
  · norm_num [otioPlaceholderPositions, otioAudioPlaceholders,
      otioTrackPositions, max_def]
  · norm_num [placeholderOffsetsFcpxml, otioPlaceholderPositions,
      audioPlaceholders, otioAudioPlaceholders, otioTrackPositions, max_def]
